import Mathlib

/-!
Verification of the psiz repository's specification claims against a shallow
embedding of the code. Pure library functions are translated into Lean
functions; randomized procedures are modelled by threading an explicit stream
of random draws; Python floats appearing only as finite-vs-non-finite control
flow are modelled as `Option ℚ`.
-/

namespace Psiz

/-! ### Behavior base layer (src/psiz/keras/layers/behaviors/base.py) -/

/-- Python exception raised by the abstract `Behavior.call`. -/
inductive PyError
  | notImplementedError
  deriving DecidableEq, Repr

/-- Attribute state of a `Behavior` layer: the two attributes assigned in
`Behavior.__init__` (`self._n_sample = 0`, `self._kl_weight = 0`). -/
structure Behavior where
  n_sample : Int
  kl_weight : Int
  deriving DecidableEq, Repr

/-- `Behavior.__init__`: sets `_n_sample = 0` and `_kl_weight = 0`. -/
def Behavior.init : Behavior :=
  { n_sample := 0, kl_weight := 0 }

/-- `Behavior.call(self, inputs)`: `raise NotImplementedError` on every input. -/
def Behavior.call (_b : Behavior) (_inputs : List Int) : Except PyError (List Int) :=
  Except.error PyError.notImplementedError

/-! ### Pairwise similarity matrix
(`similarity_matrix` in src/examples/rank/vi_one_group_convergence.py)

The source computes `a, b = np.meshgrid(xg, xg)` with `xg = arange(n)`,
flattens both (row-major), gathers `z_a = z[a]`, `z_b = z[b]`, applies the
kernel elementwise and reshapes the flat result to `n × n`.  In flattened
position `t = i*n + j` (with `i, j < n`) meshgrid gives `a[t] = t % n = j` and
`b[t] = t / n = i`. -/

/-- Flattened meshgrid first output: `a.flatten()[t] = t % n`. -/
def mesh_a (n t : Nat) : Nat := t % n

/-- Flattened meshgrid second output: `b.flatten()[t] = t / n`. -/
def mesh_b (n t : Nat) : Nat := t / n

/-- Flat kernel vector `k = kernel_fn(z[a], z[b])` of the source. -/
def kernel_flat {α β : Type} (f : α → α → β) (n : Nat) (z : Nat → α) (t : Nat) : β :=
  f (z (mesh_a n t)) (z (mesh_b n t))

/-- `similarity_matrix(kernel_fn, z)`: the flat kernel vector reshaped
(row-major) to an `n × n` matrix, entry `(i, j)` at flat position `i*n + j`. -/
def similarity_matrix {α β : Type} (f : α → α → β) (n : Nat) (z : Nat → α)
    (i j : Nat) : β :=
  kernel_flat f n z (i * n + j)

/-! ### Matrix comparison (psiz.utils.matrix_comparison) -/

/-- Mean of a list of rationals (`sum / len`; `0` for the empty list, matching
the field convention `x / 0 = 0`). -/
def listMean (xs : List ℚ) : ℚ := xs.sum / xs.length

/-- Entries of a list re-centered around the list's mean. -/
def centered (xs : List ℚ) : List ℚ := xs.map (fun x => x - listMean xs)

/-- Dot product of two lists of rationals. -/
def dotList (xs ys : List ℚ) : ℚ := (List.zipWith (fun x y => x * y) xs ys).sum

/-- Squared Pearson correlation coefficient between two equal-length vectors:
`cov(x, y)^2 / (var(x) * var(y))` in the centered-dot-product form. -/
def r2score (xs ys : List ℚ) : ℚ :=
  (dotList (centered xs) (centered ys)) ^ 2
    / (dotList (centered xs) (centered xs) * dotList (centered ys) (centered ys))

/-- Modelled from the spec: `psiz.utils.matrix_comparison(mat_a, mat_b,
score='r2')` is not under src/ (only its callers are); per the spec it returns
the squared Pearson correlation between the two flattened matrices. -/
def matrix_comparison (mat_a mat_b : List (List ℚ)) : ℚ :=
  r2score mat_a.flatten mat_b.flatten

/-! ### Docket generator (psiz.generator.RandomGenerator) -/

/-- One uniform pick from a nonempty pool, driven by a raw random number `r`:
position `r % pool.length` of the pool. -/
def pickIdx (pool : List Nat) (r : Nat) : Nat :=
  pool.getD (r % pool.length) 0

/-- Modelled from the spec: drawing distinct stimulus indices uniformly at
random, one random number per draw; each drawn value is removed from the
remaining pool before the next draw (sampling without replacement). -/
def drawFrom : List Nat → List Nat → List Nat
  | _, [] => []
  | [], _ :: _ => []
  | p :: ps, r :: rs =>
      pickIdx (p :: ps) r :: drawFrom ((p :: ps).erase (pickIdx (p :: ps) r)) rs

/-- The stimulus index pool `{1..n_stimuli}` (index `0` is the placeholder). -/
def stimulusPool (n_stimuli : Nat) : List Nat :=
  (List.range n_stimuli).map (fun k => k + 1)

/-- A single generated trial: a query index and its reference indices. -/
structure Trial where
  query : Nat
  references : List Nat
  deriving DecidableEq, Repr

/-- Modelled from the spec: for one trial, `RandomGenerator.generate` draws
`n_reference` distinct indices from `{1..n_stimuli}` for the reference set and
one additional distinct index as the query. -/
def generateTrial (n_stimuli n_reference : Nat) (rand : List Nat) : Trial :=
  let drawn := drawFrom (stimulusPool n_stimuli) (rand.take (n_reference + 1))
  { query := drawn.getD n_reference 0, references := drawn.take n_reference }

/-- Error raised on a malformed trial-shape request. -/
inductive GeneratorError
  | invalidConfiguration
  deriving DecidableEq, Repr

/-- Modelled from the spec: `psiz.generator.RandomGenerator.generate` is not
under src/ (only its callers are); per the spec it fails with
`InvalidConfiguration` if `n_reference ≥ n_stimuli` or `n_select > n_reference`,
and otherwise draws every trial's stimuli without replacement from
`{1..n_stimuli}`.  One random stream is consumed per trial. -/
def RandomGenerator.generate (n_stimuli n_reference n_select : Nat)
    (rands : List (List Nat)) : Except GeneratorError (List Trial) :=
  if n_stimuli ≤ n_reference ∨ n_reference < n_select then
    Except.error GeneratorError.invalidConfiguration
  else
    Except.ok (rands.map (generateTrial n_stimuli n_reference))

/-! ### Observations container (psiz.trials) -/

/-- Modelled from the spec: the Observations container of `psiz.trials` is not
under src/ (only its callers are).  Per-trial fields kept in association:
padded stimulus rows (first slot the query, placeholder `0` beyond a trial's
own reference count), selection counts, realized outcomes, group ids. -/
structure Observations where
  stimulus_set : List (List Nat)
  n_select : List Nat
  outcome : List (List Nat)
  group_id : List Nat
  deriving DecidableEq, Repr

/-- Number of trials in an Observations. -/
def Observations.n_trial (o : Observations) : Nat := o.stimulus_set.length

/-- Pad one stimulus row with the placeholder `0` to width `w`. -/
def padRow (w : Nat) (row : List Nat) : List Nat :=
  row ++ List.replicate (w - row.length) 0

/-- Padded width of an Observations' stimulus array. -/
def Observations.width (o : Observations) : Nat :=
  (o.stimulus_set.map List.length).foldr max 0

/-- Strip trailing placeholder entries from a stimulus row, leaving its
content. -/
def stripPad (row : List Nat) : List Nat :=
  (row.reverse.dropWhile (fun x => x == 0)).reverse

/-- The structural configuration of one trial: (n_reference, n_select),
reference count derived from the non-placeholder reference slots. -/
def trialConfig (row : List Nat) (ns : Nat) : Nat × Nat :=
  (((row.drop 1).filter (fun x => x != 0)).length, ns)

/-- Per-trial configuration list of an Observations. -/
def Observations.configs (o : Observations) : List (Nat × Nat) :=
  List.zipWith trialConfig o.stimulus_set o.n_select

/-- Recomputed configuration index: position of each trial's configuration in
the deduplicated list of configurations, so identical configurations across
stacked sources collapse to the same index. -/
def Observations.config_idx (o : Observations) : List Nat :=
  o.configs.map (fun c => o.configs.dedup.indexOf c)

/-- Modelled from the spec: `psiz.trials.stack` concatenates two Observations,
re-padding every stimulus row to the maximum width across the inputs
(`config_idx` is recomputed, being derived data here). -/
def stack (A B : Observations) : Observations :=
  let w := max A.width B.width
  { stimulus_set := A.stimulus_set.map (padRow w) ++ B.stimulus_set.map (padRow w)
    n_select := A.n_select ++ B.n_select
    outcome := A.outcome ++ B.outcome
    group_id := A.group_id ++ B.group_id }

/-- Modelled from the spec: `Observations.subset` restricts to the given trial
indices, keeping stimulus_set, n_select, outcome and group_id in association. -/
def Observations.subset (o : Observations) (idx : List Nat) : Observations :=
  { stimulus_set := idx.map (fun i => o.stimulus_set.getD i [])
    n_select := idx.map (fun i => o.n_select.getD i 0)
    outcome := idx.map (fun i => o.outcome.getD i [])
    group_id := idx.map (fun i => o.group_id.getD i 0) }

/-! ### Agent simulator and the Luce-choice process (psiz.simulate.Agent) -/

/-- A docket of trials in padded form: first slot of each row is the query,
remaining slots the references, placeholder `0` past a trial's own
reference count; `n_select` selections per trial. -/
structure Docket where
  stimulus_set : List (List Nat)
  n_select : List Nat
  deriving DecidableEq, Repr

/-- The valid (non-placeholder) references of one padded stimulus row. -/
def validRefs (row : List Nat) : List Nat :=
  (row.drop 1).filter (fun x => x != 0)

/-- Modelled from the spec: a simulated agent holds an embedding's similarity
function (conditioned on the agent's group), a configured Luce exponent
(`1` by default) and a group id. -/
structure Agent where
  similarity : Nat → Nat → ℚ
  gamma : Nat
  group_id : Nat

/-- Luce-choice weight of reference `r` for query `q`:
`similarity(q, r)` raised to the configured exponent. -/
def luceWeight (sim : Nat → ℚ) (gamma r : Nat) : ℚ := sim r ^ gamma

/-- Modelled from the spec: probability that the sequential
without-replacement Luce-choice process over candidate pool `pool` with
weights `s` records the selection sequence `sel`: the head is chosen with
probability equal to its weight over the total weight of the remaining pool,
the chosen candidate is removed, and the process recurses — renormalizing
over the remaining candidates after each removal. -/
def luceSeqProb (s : Nat → ℚ) : List Nat → List Nat → ℚ
  | _, [] => 1
  | pool, r :: rest =>
      if r ∈ pool then s r / (pool.map s).sum * luceSeqProb s (pool.erase r) rest
      else 0

/-- All selection sequences of length `k` drawable without replacement from
`pool`: the support of the sequential Luce process. -/
def selections : List Nat → Nat → List (List Nat)
  | _, 0 => [[]]
  | pool, k + 1 =>
      (pool.map
        (fun r => (selections (pool.erase r) k).map (fun sel => r :: sel))).flatten

/-- One inverse-CDF Luce draw over a weighted pool: walk the candidates,
subtracting each candidate's weight from the scaled uniform draw until the
draw falls inside a candidate's probability mass (the last candidate absorbs
the remainder). -/
def lucePickGo (s : Nat → ℚ) : List Nat → ℚ → Nat
  | [], _ => 0
  | [r], _ => r
  | r :: q :: rest, t => if t < s r then r else lucePickGo s (q :: rest) (t - s r)

/-- One Luce draw from `pool` driven by a uniform rational `u ∈ [0, 1)`. -/
def lucePick (s : Nat → ℚ) (pool : List Nat) (u : ℚ) : Nat :=
  lucePickGo s pool (u * (pool.map s).sum)

/-- Modelled from the spec: the agent's sequential selection loop — one Luce
draw per remaining random number, the drawn candidate removed from the pool
before the next draw. -/
def agentSelect (s : Nat → ℚ) : List Nat → List ℚ → List Nat
  | _, [] => []
  | [], _ :: _ => []
  | p :: ps, u :: us =>
      lucePick s (p :: ps) u
        :: agentSelect s ((p :: ps).erase (lucePick s (p :: ps) u)) us

/-- Modelled from the spec: simulate one trial — `n_select` sequential Luce
draws among the trial's valid (non-placeholder) references, with weights
`similarity(query, r) ^ gamma`. -/
def Agent.simulateTrial (a : Agent) (row : List Nat) (ns : Nat)
    (us : List ℚ) : List Nat :=
  agentSelect (luceWeight (a.similarity (row.headD 0)) a.gamma) (validRefs row)
    (us.take ns)

/-- Modelled from the spec: `Agent.simulate(docket)` builds a new Observations
carrying the docket's trial data unchanged, with one simulated outcome per
trial and the agent's group id attached. -/
def Agent.simulate (a : Agent) (d : Docket) (us : List (List ℚ)) : Observations :=
  { stimulus_set := d.stimulus_set
    n_select := d.n_select
    outcome :=
      List.zipWith (fun p u => Agent.simulateTrial a p.1 p.2 u)
        (d.stimulus_set.zip d.n_select) us
    group_id := d.stimulus_set.map (fun _ => a.group_id) }

/-! ### Restart-based Fit Controller (psiz.models.Proxy.fit) -/

/-- Modelled from the spec: one restart's outcome — its monitored loss
trajectory, one entry per epoch; `none` marks a raised numerical error or a
non-finite (NaN/Inf) loss at that epoch. -/
structure RestartRecord where
  losses : List (Option ℚ)
  deriving DecidableEq, Repr

/-- A restart is valid when it ran at least one epoch and every epoch's loss
was finite (no numerical failure). -/
def RestartRecord.isValid (rec : RestartRecord) : Bool :=
  !rec.losses.isEmpty && rec.losses.all (fun l => l.isSome)

/-- Final achieved monitored value of a restart (its last epoch's loss). -/
def RestartRecord.final (rec : RestartRecord) : ℚ :=
  match rec.losses.getLast? with
  | some (some v) => v
  | _ => 0

/-- The `(restart index, final monitored value)` pairs of the valid restarts,
indices counted from `i`; failed restarts contribute nothing. -/
def validPairs : Nat → List RestartRecord → List (Nat × ℚ)
  | _, [] => []
  | i, rec :: recs =>
      if rec.isValid then (i, rec.final) :: validPairs (i + 1) recs
      else validPairs (i + 1) recs

/-- Candidate comparison for best-restart selection: strictly lower monitored
value wins; ties keep the earlier restart (deterministic policy). -/
def betterOf (b q : Nat × ℚ) : Nat × ℚ := if q.2 < b.2 then q else b

/-- Best pair of a candidate list (lowest monitored value, earliest index on
ties); `none` when no candidate survived. -/
def pickBest : List (Nat × ℚ) → Option (Nat × ℚ)
  | [] => none
  | p :: ps => some (ps.foldl betterOf p)

/-- Summary returned by the fit controller. -/
structure FitSummary where
  records : List RestartRecord
  n_valid_restart : Nat
  best : Option (Nat × ℚ)
  mean_loss : ℚ
  deriving DecidableEq, Repr

/-- Modelled from the spec: the restart loop of `Proxy.fit` — every requested
restart runs to completion (a failure never aborts its siblings) and is
recorded; restarts with a numerical failure are excluded from best-restart
selection and from the aggregate statistics, which cover only the valid
subset, whose count is reported. -/
def fitController (trajectories : List (List (Option ℚ))) : FitSummary :=
  let records := trajectories.map RestartRecord.mk
  let vp := validPairs 0 records
  { records := records
    n_valid_restart := vp.length
    best := pickBest vp
    mean_loss := (vp.map Prod.snd).sum / vp.length }

/-! ### Early stopping (psiz.keras.callbacks.EarlyStoppingRe) -/

/-- Result of one restart's training loop under early stopping: the recorded
epoch, the weights left in the model, the number of epochs actually run, and
whether early stopping triggered. -/
structure ESResult (W : Type) where
  n_epoch : Nat
  weights : W
  epochs_run : Nat
  triggered : Bool
  deriving DecidableEq, Repr

/-- Modelled from the spec: the per-epoch early-stopping loop
(`EarlyStoppingRe(monitor, patience, mode='min', restore_best_weights=True)`
is not under src/, only its callers are).  Each epoch the monitored validation
value is compared against the best so far: a strict improvement makes the
epoch the new best (saving its weights, resetting the patience counter);
otherwise the counter grows, and once it reaches `patience` the restart stops,
rolling the model back to the best epoch's weights and recording that best
epoch — not the epoch of termination — as `n_epoch`. -/
def esLoop {α W : Type} [LinearOrder α] (patience : Nat) :
    List (α × W) → Nat → Nat → α → W → Nat → ESResult W
  | [], epoch, bestE, _bestV, bestW, _wait => ⟨bestE, bestW, epoch, false⟩
  | (v, w) :: rest, epoch, bestE, bestV, bestW, wait =>
      if v < bestV then esLoop patience rest (epoch + 1) epoch v w 0
      else if patience ≤ wait + 1 then ⟨bestE, bestW, epoch + 1, true⟩
      else esLoop patience rest (epoch + 1) bestE bestV bestW (wait + 1)

/-- Run a restart's training history `(monitored value, weights)` per epoch
through early stopping; `none` on an empty history. -/
def runES {α W : Type} [LinearOrder α] (patience : Nat) :
    List (α × W) → Option (ESResult W)
  | [] => none
  | (v, w) :: rest => some (esLoop patience rest 1 0 v w 0)

/-! #### Generator lemmas -/

theorem getD_mem_of_lt {α : Type} (l : List α) (i : Nat) (d : α)
    (h : i < l.length) : l.getD i d ∈ l := by
  induction l generalizing i with
  | nil => simp at h
  | cons a as ih =>
    cases i with
    | zero => simp [List.getD_cons_zero]
    | succ n =>
      rw [List.getD_cons_succ]
      exact List.mem_cons_of_mem a (ih n (by simpa using Nat.lt_of_succ_lt_succ h))

theorem pickIdx_mem (pool : List Nat) (r : Nat) (hp : pool ≠ []) :
    pickIdx pool r ∈ pool := by
  have hlen : 0 < pool.length := List.length_pos.mpr hp
  exact getD_mem_of_lt pool (r % pool.length) 0 (Nat.mod_lt r hlen)

theorem drawFrom_subset (rand : List Nat) :
    ∀ pool : List Nat, ∀ y ∈ drawFrom pool rand, y ∈ pool := by
  induction rand with
  | nil => intro pool y hy; simp [drawFrom] at hy
  | cons r rs ih =>
    intro pool y hy
    cases pool with
    | nil => simp [drawFrom] at hy
    | cons p ps =>
      rw [drawFrom] at hy
      rcases List.mem_cons.mp hy with h | h
      · exact h ▸ pickIdx_mem (p :: ps) r (by simp)
      · exact List.mem_of_mem_erase (ih _ y h)

theorem drawFrom_nodup (rand : List Nat) :
    ∀ pool : List Nat, pool.Nodup → (drawFrom pool rand).Nodup := by
  induction rand with
  | nil => intro pool _; simp [drawFrom]
  | cons r rs ih =>
    intro pool hpool
    cases pool with
    | nil => simp [drawFrom]
    | cons p ps =>
      rw [drawFrom]
      refine List.nodup_cons.mpr ⟨?_, ih _ (hpool.erase _)⟩
      intro hmem
      have hx := drawFrom_subset rs _ _ hmem
      exact (hpool.mem_erase_iff.mp hx).1 rfl

theorem drawFrom_length (rand : List Nat) :
    ∀ pool : List Nat, (drawFrom pool rand).length = min rand.length pool.length := by
  induction rand with
  | nil => intro pool; simp [drawFrom]
  | cons r rs ih =>
    intro pool
    cases pool with
    | nil => simp [drawFrom]
    | cons p ps =>
      rw [drawFrom]
      have hx : pickIdx (p :: ps) r ∈ p :: ps := pickIdx_mem (p :: ps) r (by simp)
      have hlen := List.length_erase_add_one hx
      simp only [List.length_cons, ih]
      simp only [List.length_cons] at hlen
      omega

theorem stimulusPool_nodup (n : Nat) : (stimulusPool n).Nodup :=
  (List.nodup_range n).map (fun a b h => by omega)

theorem stimulusPool_length (n : Nat) : (stimulusPool n).length = n := by
  simp [stimulusPool]

theorem mem_stimulusPool {n x : Nat} (h : x ∈ stimulusPool n) : 1 ≤ x ∧ x ≤ n := by
  rcases List.mem_map.mp h with ⟨k, hk, rfl⟩
  have := List.mem_range.mp hk
  omega

/-- A nodup list never repeats an element before its own position. -/
theorem nodup_getElem_not_mem_take {α : Type} [DecidableEq α] {l : List α}
    (h : l.Nodup) {k : Nat} (hk : k < l.length) : l[k] ∉ l.take k := by
  intro hmem
  obtain ⟨i, hi, hEq⟩ := List.getElem_of_mem hmem
  have hik : i < k := by
    have := hi
    simp [List.length_take] at this
    omega
  have hil : i < l.length := Nat.lt_trans hik hk
  rw [List.getElem_take] at hEq
  exact absurd (h.getElem_inj_iff.mp hEq) (Nat.ne_of_lt hik)

theorem getD_eq_getElem_of_lt {α : Type} (l : List α) (i : Nat) (d : α)
    (h : i < l.length) : l.getD i d = l.get ⟨i, h⟩ := by
  induction l generalizing i with
  | nil => simp at h
  | cons a as ih =>
    cases i with
    | zero => simp [List.getD_cons_zero]
    | succ n =>
      rw [List.getD_cons_succ]
      exact ih n (by simpa using Nat.lt_of_succ_lt_succ h)

theorem generateTrial_spec (n_stimuli n_reference : Nat) (rand : List Nat)
    (hr : n_reference + 1 ≤ rand.length) (hs : n_reference < n_stimuli) :
    (generateTrial n_stimuli n_reference rand).references.Nodup
    ∧ (generateTrial n_stimuli n_reference rand).references.length = n_reference
    ∧ (∀ x ∈ (generateTrial n_stimuli n_reference rand).references,
        1 ≤ x ∧ x ≤ n_stimuli)
    ∧ (1 ≤ (generateTrial n_stimuli n_reference rand).query
        ∧ (generateTrial n_stimuli n_reference rand).query ≤ n_stimuli)
    ∧ (generateTrial n_stimuli n_reference rand).query
        ∉ (generateTrial n_stimuli n_reference rand).references := by
  have hq : (generateTrial n_stimuli n_reference rand).query
      = (drawFrom (stimulusPool n_stimuli) (rand.take (n_reference + 1))).getD
          n_reference 0 := rfl
  have hrefs : (generateTrial n_stimuli n_reference rand).references
      = (drawFrom (stimulusPool n_stimuli) (rand.take (n_reference + 1))).take
          n_reference := rfl
  rw [hq, hrefs]
  set drawn := drawFrom (stimulusPool n_stimuli) (rand.take (n_reference + 1))
    with hd
  have hlen : drawn.length = n_reference + 1 := by
    rw [hd, drawFrom_length, List.length_take, stimulusPool_length]
    omega
  have hnodup : drawn.Nodup := drawFrom_nodup _ _ (stimulusPool_nodup _)
  have hsub : ∀ y ∈ drawn, y ∈ stimulusPool n_stimuli := drawFrom_subset _ _
  have hklt : n_reference < drawn.length := by omega
  refine ⟨?_, ?_, ?_, ?_, ?_⟩
  · exact List.Nodup.sublist (List.take_sublist _ _) hnodup
  · rw [List.length_take]; omega
  · intro x hx
    exact mem_stimulusPool (hsub x (List.mem_of_mem_take hx))
  · exact mem_stimulusPool (hsub _ (getD_mem_of_lt _ _ _ hklt))
  · rw [getD_eq_getElem_of_lt drawn n_reference 0 hklt]
    exact nodup_getElem_not_mem_take hnodup hklt

/-! #### Theorems for the generator -/

/-- C3: every trial of a docket returned by `RandomGenerator.generate` has
pairwise-distinct reference indices drawn from `{1..n_stimuli}` and a query
index in `{1..n_stimuli}` that equals none of the references. -/
theorem generate_docket_trials_valid (n_stimuli n_reference n_select : Nat)
    (rands : List (List Nat)) (docket : List Trial)
    (h1 : ∀ r ∈ rands, n_reference + 1 ≤ r.length)
    (h2 : RandomGenerator.generate n_stimuli n_reference n_select rands
        = Except.ok docket) :
    ∀ t ∈ docket,
      t.references.Nodup ∧ t.references.length = n_reference
      ∧ (∀ x ∈ t.references, 1 ≤ x ∧ x ≤ n_stimuli)
      ∧ (1 ≤ t.query ∧ t.query ≤ n_stimuli)
      ∧ t.query ∉ t.references := by
  unfold RandomGenerator.generate at h2
  by_cases hcond : n_stimuli ≤ n_reference ∨ n_reference < n_select
  · rw [if_pos hcond] at h2
    exact absurd h2 (by simp)
  · rw [if_neg hcond] at h2
    have hdocket : docket = rands.map (generateTrial n_stimuli n_reference) :=
      (Except.ok.injEq _ _ ▸ h2).symm
    intro t ht
    rw [hdocket] at ht
    obtain ⟨r, hrmem, rfl⟩ := List.mem_map.mp ht
    have hs : n_reference < n_stimuli := by omega
    exact generateTrial_spec n_stimuli n_reference r (h1 r hrmem) hs

/-- C3 witness: the generator applied to a concrete well-formed request; the
first produced trial is `⟨4, [1, 3]⟩` and satisfies all three properties. -/
theorem generate_docket_trials_valid_witness :
    (Trial.mk 4 [1, 3]).references.Nodup
    ∧ (Trial.mk 4 [1, 3]).references.length = 2
    ∧ (∀ x ∈ (Trial.mk 4 [1, 3]).references, 1 ≤ x ∧ x ≤ 4)
    ∧ (1 ≤ (Trial.mk 4 [1, 3]).query ∧ (Trial.mk 4 [1, 3]).query ≤ 4)
    ∧ (Trial.mk 4 [1, 3]).query ∉ (Trial.mk 4 [1, 3]).references :=
  generate_docket_trials_valid 4 2 1 [[0, 1, 5], [2, 2, 3]]
    [Trial.mk 4 [1, 3], Trial.mk 2 [3, 4]]
    (by decide) (by rfl) (Trial.mk 4 [1, 3]) (by decide)

/-- C6: `RandomGenerator.generate` fails with `InvalidConfiguration` exactly
when the requested shape is malformed (`n_reference ≥ n_stimuli` or
`n_select > n_reference`); every well-formed request returns a docket. -/
theorem generate_invalid_configuration_iff (n_stimuli n_reference n_select : Nat)
    (rands : List (List Nat)) :
    (RandomGenerator.generate n_stimuli n_reference n_select rands
        = Except.error GeneratorError.invalidConfiguration
      ↔ n_reference ≥ n_stimuli ∨ n_select > n_reference)
    ∧ (¬ (n_reference ≥ n_stimuli ∨ n_select > n_reference) →
        ∃ docket, RandomGenerator.generate n_stimuli n_reference n_select rands
          = Except.ok docket) := by
  unfold RandomGenerator.generate
  by_cases hcond : n_stimuli ≤ n_reference ∨ n_reference < n_select
  · rw [if_pos hcond]
    exact ⟨⟨fun _ => hcond, fun _ => rfl⟩, fun h => absurd hcond h⟩
  · rw [if_neg hcond]
    exact ⟨⟨fun h => by simp at h, fun h => absurd h hcond⟩, fun _ => ⟨_, rfl⟩⟩

/-- C6 witness: a malformed request (`n_reference = 8 ≥ 5 = n_stimuli`) raises
`InvalidConfiguration`; a well-formed one (`9` stimuli, 8-choose-2) returns a
docket. -/
theorem generate_invalid_configuration_iff_witness :
    (RandomGenerator.generate 5 8 2 [[0]]
        = Except.error GeneratorError.invalidConfiguration)
    ∧ ∃ docket, RandomGenerator.generate 9 8 2 [[0, 1, 2, 3, 4, 5, 6, 7, 8]]
        = Except.ok docket :=
  ⟨(generate_invalid_configuration_iff 5 8 2 [[0]]).1.mpr (by decide),
   (generate_invalid_configuration_iff 9 8 2 [[0, 1, 2, 3, 4, 5, 6, 7, 8]]).2
     (by decide)⟩

/-- C10: every invocation of the abstract `Behavior.call` raises
`NotImplementedError`, and a freshly constructed `Behavior` has
`n_sample = 0` and `kl_weight = 0`. -/
theorem behavior_call_raises_and_init_zero :
    (∀ (b : Behavior) (inputs : List Int),
      Behavior.call b inputs = Except.error PyError.notImplementedError)
    ∧ Behavior.init.n_sample = 0 ∧ Behavior.init.kl_weight = 0 := by
  refine ⟨fun b inputs => rfl, rfl, rfl⟩

/-- C8 counterexample: with the asymmetric kernel `f x y = x` on the point set
`z = id` over `n = 2` stimuli, entry `(0, 1)` of `similarity_matrix` is
`f (z 1) (z 0) = 1`, not the claimed `f (z 0) (z 1) = 0`: the entry at `(i, j)`
is the kernel applied to the ordered pair `(row j, row i)`, not `(row i, row j)`. -/
theorem similarity_matrix_not_row_major_pair :
    ¬ (similarity_matrix (fun x _y => x) 2 (fun t => t) 0 1
        = (fun (x : Nat) (_y : Nat) => x) ((fun (t : Nat) => t) 0) ((fun (t : Nat) => t) 1)) := by
  decide

/-- C8 (amended): `similarity_matrix f n z` is the full `n × n` matrix — every
pair of indices `i, j < n`, self-pairs on the diagonal included, with no
masking — whose `(i, j)` entry is `f` evaluated on the ordered pair of rows
`(j, i)` of `z` (the transpose orientation induced by `np.meshgrid`). -/
theorem similarity_matrix_entry {α β : Type} (f : α → α → β) (n : Nat)
    (z : Nat → α) (i j : Nat) (hi : i < n) (hj : j < n) :
    similarity_matrix f n z i j = f (z j) (z i) := by
  have hn : 0 < n := Nat.lt_of_le_of_lt (Nat.zero_le i) hi
  unfold similarity_matrix kernel_flat mesh_a mesh_b
  have hmod : (i * n + j) % n = j := by
    rw [Nat.add_comm, Nat.add_mul_mod_self_right]
    exact Nat.mod_eq_of_lt hj
  have hdiv : (i * n + j) / n = i := by
    rw [Nat.add_comm, Nat.add_mul_div_right j i hn, Nat.div_eq_of_lt hj, Nat.zero_add]
  rw [hmod, hdiv]

/-- C7 counterexample: for the constant matrix `[[1, 1]]` the flattened vector
has zero variance, so the squared Pearson correlation is undefined (NaN in
the floating-point source; `0/0 = 0` in this rational model) — not `1`.
The claim "for every matrix M, `matrix_comparison(M, M, 'r2') = 1`" fails. -/
theorem matrix_comparison_self_constant_ne_one :
    ¬ (matrix_comparison [[1, 1]] [[1, 1]] = 1) := by
  norm_num [matrix_comparison, r2score, dotList, centered, listMean]

/-- C7 (amended): for every matrix whose flattened entries are not all equal
(nonzero centered sum of squares), `matrix_comparison(M, M, 'r2') = 1`; in
general `matrix_comparison` with `score='r2'` is the squared Pearson
correlation `r2score` of the flattened matrices. -/
theorem matrix_comparison_self_eq_one (mat : List (List ℚ))
    (h : dotList (centered mat.flatten) (centered mat.flatten) ≠ 0) :
    matrix_comparison mat mat = 1 := by
  unfold matrix_comparison r2score
  rw [sq]
  exact div_self (mul_ne_zero h h)

/-- C7 witness: the non-constant matrix `[[1, 2]]` satisfies the hypothesis
and compares to itself with score `1`. -/
theorem matrix_comparison_self_eq_one_witness :
    dotList (centered (List.flatten [[(1 : ℚ), 2]]))
        (centered (List.flatten [[(1 : ℚ), 2]])) ≠ 0
    ∧ matrix_comparison [[(1 : ℚ), 2]] [[(1 : ℚ), 2]] = 1 :=
  ⟨by norm_num [dotList, centered, listMean],
    matrix_comparison_self_eq_one [[(1 : ℚ), 2]]
      (by norm_num [dotList, centered, listMean])⟩

/-- C8 witness: the amended entry formula evaluated at a concrete input. -/
theorem similarity_matrix_entry_witness :
    0 < 2 ∧ 1 < 2 ∧
      similarity_matrix (fun x y => 10 * x + y) 2 (fun t => t) 0 1
        = (fun (x y : Nat) => 10 * x + y) 1 0 :=
  ⟨by decide, by decide,
    similarity_matrix_entry (fun x y => 10 * x + y) 2 (fun t => t) 0 1
      (by decide) (by decide)⟩

/-! #### Observations lemmas -/

theorem getD_append_left_of_lt {α : Type} (l m : List α) (i : Nat) (d : α)
    (h : i < l.length) : (l ++ m).getD i d = l.getD i d := by
  induction l generalizing i with
  | nil => simp at h
  | cons a as ih =>
    cases i with
    | zero => simp [List.getD_cons_zero]
    | succ n =>
      simp only [List.cons_append, List.getD_cons_succ]
      exact ih n (by simpa using Nat.lt_of_succ_lt_succ h)

theorem map_range_getD {α : Type} (l : List α) (d : α) :
    (List.range l.length).map (fun i => l.getD i d) = l := by
  apply List.ext_getElem
  · simp
  · intro i h1 h2
    simp only [List.getElem_map, List.getElem_range]
    rw [getD_eq_getElem_of_lt l i d h2, List.get_eq_getElem]

theorem map_range_getD_append {α : Type} (l m : List α) (d : α) :
    (List.range l.length).map (fun i => (l ++ m).getD i d) = l := by
  have h : ∀ i ∈ List.range l.length, (l ++ m).getD i d = l.getD i d := fun i hi =>
    getD_append_left_of_lt l m i d (List.mem_range.mp hi)
  calc (List.range l.length).map (fun i => (l ++ m).getD i d)
      = (List.range l.length).map (fun i => l.getD i d) := List.map_congr_left h
    _ = l := map_range_getD l d

theorem dropWhile_replicate_zero_append (k : Nat) (l : List Nat) :
    List.dropWhile (fun x => x == 0) (List.replicate k 0 ++ l)
      = List.dropWhile (fun x => x == 0) l := by
  induction k with
  | zero => simp
  | succ n ih => simp [List.replicate_succ, List.dropWhile_cons, ih]

theorem stripPad_padRow (w : Nat) (row : List Nat) :
    stripPad (padRow w row) = stripPad row := by
  unfold stripPad padRow
  rw [List.reverse_append, List.reverse_replicate, dropWhile_replicate_zero_append]

/-- C4: the stack-then-subset round trip: stacking Observations `A` and `B`
and then taking the subset of the first `len(A)` trial indices reproduces `A`'s
outcome exactly and `A`'s stimulus_set content exactly (rows agree after
stripping the placeholder padding that stacking may add to reconcile widths). -/
theorem stack_subset_roundtrip (A B : Observations)
    (hout : A.outcome.length = A.n_trial) :
    ((stack A B).subset (List.range A.n_trial)).outcome = A.outcome
    ∧ ((stack A B).subset (List.range A.n_trial)).stimulus_set.map stripPad
        = A.stimulus_set.map stripPad := by
  constructor
  · show (List.range A.n_trial).map (fun i => (stack A B).outcome.getD i [])
        = A.outcome
    have hsk : (stack A B).outcome = A.outcome ++ B.outcome := rfl
    rw [hsk, ← hout]
    exact map_range_getD_append _ _ _
  · show ((List.range A.n_trial).map
        (fun i => (stack A B).stimulus_set.getD i [])).map stripPad
        = A.stimulus_set.map stripPad
    have hsk : (stack A B).stimulus_set
        = A.stimulus_set.map (padRow (max A.width B.width))
          ++ B.stimulus_set.map (padRow (max A.width B.width)) := rfl
    have hn : A.n_trial
        = (A.stimulus_set.map (padRow (max A.width B.width))).length := by
      simp [Observations.n_trial]
    rw [hsk, hn, map_range_getD_append, List.map_map]
    refine List.map_congr_left ?_
    intro row _
    exact stripPad_padRow _ row

/-- C4 witness: a concrete pair where `B` is wider than `A`; the round trip
reproduces `A`'s outcome and stimulus content. -/
theorem stack_subset_roundtrip_witness :
    ((stack (Observations.mk [[5, 1, 2]] [1] [[0]] [0])
          (Observations.mk [[3, 2, 1, 4, 7]] [2] [[1, 0]] [1])).subset
        (List.range (Observations.mk [[5, 1, 2]] [1] [[0]] [0]).n_trial)).outcome
      = (Observations.mk [[5, 1, 2]] [1] [[0]] [0]).outcome
    ∧ ((stack (Observations.mk [[5, 1, 2]] [1] [[0]] [0])
          (Observations.mk [[3, 2, 1, 4, 7]] [2] [[1, 0]] [1])).subset
        (List.range
          (Observations.mk [[5, 1, 2]] [1] [[0]] [0]).n_trial)).stimulus_set.map
        stripPad
      = (Observations.mk [[5, 1, 2]] [1] [[0]] [0]).stimulus_set.map stripPad :=
  stack_subset_roundtrip (Observations.mk [[5, 1, 2]] [1] [[0]] [0])
    (Observations.mk [[3, 2, 1, 4, 7]] [2] [[1, 0]] [1]) (by rfl)

/-! #### Luce-process lemmas -/

theorem lucePickGo_mem (s : Nat → ℚ) : ∀ pool : List Nat, pool ≠ [] → ∀ t : ℚ,
    lucePickGo s pool t ∈ pool := by
  intro pool
  induction pool with
  | nil => intro h; exact absurd rfl h
  | cons r rest ih =>
    intro _ t
    cases rest with
    | nil => simp [lucePickGo]
    | cons q rest2 =>
      simp only [lucePickGo]
      split
      · exact List.mem_cons_self r (q :: rest2)
      · exact List.mem_cons_of_mem r (ih (by simp) (t - s r))

theorem lucePick_mem (s : Nat → ℚ) (pool : List Nat) (u : ℚ) (hp : pool ≠ []) :
    lucePick s pool u ∈ pool :=
  lucePickGo_mem s pool hp (u * (pool.map s).sum)

theorem selections_spec (k : Nat) : ∀ pool : List Nat, pool.Nodup →
    ∀ sel ∈ selections pool k,
      sel.Nodup ∧ sel.length = k ∧ ∀ r ∈ sel, r ∈ pool := by
  induction k with
  | zero =>
    intro pool _ sel hsel
    simp only [selections, List.mem_singleton] at hsel
    subst hsel
    simp
  | succ k ih =>
    intro pool hpool sel hsel
    rw [selections] at hsel
    obtain ⟨L, hL, hselL⟩ := List.mem_flatten.mp hsel
    obtain ⟨r, hr, rfl⟩ := List.mem_map.mp hL
    obtain ⟨sel2, hsel2, rfl⟩ := List.mem_map.mp hselL
    obtain ⟨h1, h2, h3⟩ := ih (pool.erase r) (hpool.erase r) sel2 hsel2
    refine ⟨List.nodup_cons.mpr ⟨fun hmem => ?_, h1⟩, by simp [h2], ?_⟩
    · exact (hpool.mem_erase_iff.mp (h3 r hmem)).1 rfl
    · intro x hx
      rcases List.mem_cons.mp hx with rfl | hx2
      · exact hr
      · exact List.mem_of_mem_erase (h3 x hx2)

theorem agentSelect_mem_selections (s : Nat → ℚ) (us : List ℚ) :
    ∀ pool : List Nat, us.length ≤ pool.length →
      agentSelect s pool us ∈ selections pool us.length := by
  induction us with
  | nil => intro pool _; simp [agentSelect, selections]
  | cons u us ih =>
    intro pool hlen
    cases pool with
    | nil => simp at hlen
    | cons p ps =>
      have hxm : lucePick s (p :: ps) u ∈ p :: ps :=
        lucePick_mem s (p :: ps) u (by simp)
      rw [agentSelect, List.length_cons, selections]
      apply List.mem_flatten.mpr
      refine ⟨(selections ((p :: ps).erase (lucePick s (p :: ps) u)) us.length).map
          (fun sel => lucePick s (p :: ps) u :: sel),
        List.mem_map.mpr ⟨lucePick s (p :: ps) u, hxm, rfl⟩, ?_⟩
      apply List.mem_map.mpr
      refine ⟨agentSelect s ((p :: ps).erase (lucePick s (p :: ps) u)) us,
        ih _ ?_, rfl⟩
      have hone := List.length_erase_add_one hxm
      simp only [List.length_cons] at hlen hone
      omega

theorem luce_sum_one (s : Nat → ℚ) (k : Nat) : ∀ pool : List Nat,
    (∀ r ∈ pool, 0 < s r) → k ≤ pool.length →
    ((selections pool k).map (luceSeqProb s pool)).sum = 1 := by
  induction k with
  | zero => intro pool _ _; simp [selections, luceSeqProb]
  | succ k ih =>
    intro pool hpos hk
    have hne : pool ≠ [] := by
      intro h; subst h; simp at hk
    have hTpos : 0 < (pool.map s).sum := by
      apply List.sum_pos
      · intro x hx
        obtain ⟨r, hr, rfl⟩ := List.mem_map.mp hx
        exact hpos r hr
      · simpa using hne
    rw [selections, List.map_flatten, List.sum_flatten, List.map_map, List.map_map]
    have hcongr : ∀ r ∈ pool,
        ((List.sum ∘ List.map (luceSeqProb s pool))
          ∘ fun r => (selections (pool.erase r) k).map (fun sel => r :: sel)) r
        = s r / (pool.map s).sum := by
      intro r hr
      show (((selections (pool.erase r) k).map (fun sel => r :: sel)).map
          (luceSeqProb s pool)).sum = s r / (pool.map s).sum
      have hklen : k ≤ (pool.erase r).length := by
        have hone := List.length_erase_add_one hr
        omega
      have hinner : ∀ sel ∈ selections (pool.erase r) k,
          luceSeqProb s pool (r :: sel)
            = s r / (pool.map s).sum * luceSeqProb s (pool.erase r) sel := by
        intro sel _
        simp only [luceSeqProb, if_pos hr]
      simp only [Function.comp, List.map_map]
      calc ((selections (pool.erase r) k).map
              (fun sel => luceSeqProb s pool (r :: sel))).sum
          = ((selections (pool.erase r) k).map
              (fun sel => s r / (pool.map s).sum
                * luceSeqProb s (pool.erase r) sel)).sum := by
            exact congrArg List.sum (List.map_congr_left hinner)
        _ = s r / (pool.map s).sum
              * ((selections (pool.erase r) k).map
                  (luceSeqProb s (pool.erase r))).sum := by
            rw [List.sum_map_mul_left]
        _ = s r / (pool.map s).sum := by
            rw [ih (pool.erase r)
              (fun x hx => hpos x (List.mem_of_mem_erase hx)) hklen, mul_one]
    rw [List.map_congr_left hcongr]
    simp only [div_eq_mul_inv]
    rw [List.sum_map_mul_right, mul_inv_cancel₀ (ne_of_gt hTpos)]

/-! #### Theorems for the Agent simulator -/

/-- C1: `Agent.simulateTrial` records an outcome of the sequential
without-replacement Luce-choice process over the trial's valid
(non-placeholder) references: (i) the simulated outcome always lies in the
process's support `selections`; (ii) every supported outcome is a
without-replacement draw of exactly `n_select` valid references; (iii) the
process probabilities — first pick proportional to
`similarity(query, r) ^ gamma`, selected reference removed, renormalized
after each removal — sum to `1` over the support; (iv) the renormalization
recursion itself. -/
theorem simulateTrial_luce_process (a : Agent) (row : List Nat) (ns : Nat)
    (us : List ℚ)
    (hpos : ∀ r ∈ validRefs row, 0 < a.similarity (row.headD 0) r)
    (hnodup : (validRefs row).Nodup)
    (hus : us.length = ns) (hns : ns ≤ (validRefs row).length) :
    Agent.simulateTrial a row ns us
        ∈ selections (validRefs row) ns
    ∧ (∀ sel ∈ selections (validRefs row) ns,
        sel.Nodup ∧ sel.length = ns ∧ ∀ r ∈ sel, r ∈ validRefs row)
    ∧ ((selections (validRefs row) ns).map
        (luceSeqProb (luceWeight (a.similarity (row.headD 0)) a.gamma)
          (validRefs row))).sum = 1
    ∧ (∀ r ∈ validRefs row, ∀ rest : List Nat,
        luceSeqProb (luceWeight (a.similarity (row.headD 0)) a.gamma)
            (validRefs row) (r :: rest)
          = luceWeight (a.similarity (row.headD 0)) a.gamma r
              / ((validRefs row).map
                  (luceWeight (a.similarity (row.headD 0)) a.gamma)).sum
            * luceSeqProb (luceWeight (a.similarity (row.headD 0)) a.gamma)
                ((validRefs row).erase r) rest) := by
  have hwpos : ∀ r ∈ validRefs row,
      0 < luceWeight (a.similarity (row.headD 0)) a.gamma r := fun r hr =>
    pow_pos (hpos r hr) a.gamma
  refine ⟨?_, fun sel hsel => selections_spec ns (validRefs row) hnodup sel hsel,
    luce_sum_one _ ns (validRefs row) hwpos hns, ?_⟩
  · have htake : (us.take ns).length = ns := by
      rw [List.length_take]
      omega
    have := agentSelect_mem_selections
      (luceWeight (a.similarity (row.headD 0)) a.gamma) (us.take ns)
      (validRefs row) (by rw [htake]; exact hns)
    rw [htake] at this
    exact this
  · intro r hr rest
    simp only [luceSeqProb, if_pos hr]

/-- C1 witness: a trial with query `9` and valid references `[1, 2, 3]` under
the constant similarity `1` and exponent `1`, drawing `2` of `3`. -/
theorem simulateTrial_luce_process_witness :
    (Agent.mk (fun _q _r => 1) 1 0).simulateTrial [9, 1, 2, 3] 2 [1/2, 1/4]
        ∈ selections (validRefs [9, 1, 2, 3]) 2
    ∧ (∀ sel ∈ selections (validRefs [9, 1, 2, 3]) 2,
        sel.Nodup ∧ sel.length = 2 ∧ ∀ r ∈ sel, r ∈ validRefs [9, 1, 2, 3])
    ∧ ((selections (validRefs [9, 1, 2, 3]) 2).map
        (luceSeqProb
          (luceWeight ((Agent.mk (fun _q _r => 1) 1 0).similarity
            (List.headD [9, 1, 2, 3] 0)) 1)
          (validRefs [9, 1, 2, 3]))).sum = 1
    ∧ (∀ r ∈ validRefs [9, 1, 2, 3], ∀ rest : List Nat,
        luceSeqProb
            (luceWeight ((Agent.mk (fun _q _r => 1) 1 0).similarity
              (List.headD [9, 1, 2, 3] 0)) 1)
            (validRefs [9, 1, 2, 3]) (r :: rest)
          = luceWeight ((Agent.mk (fun _q _r => 1) 1 0).similarity
                (List.headD [9, 1, 2, 3] 0)) 1 r
              / ((validRefs [9, 1, 2, 3]).map
                  (luceWeight ((Agent.mk (fun _q _r => 1) 1 0).similarity
                    (List.headD [9, 1, 2, 3] 0)) 1)).sum
            * luceSeqProb
                (luceWeight ((Agent.mk (fun _q _r => 1) 1 0).similarity
                  (List.headD [9, 1, 2, 3] 0)) 1)
                ((validRefs [9, 1, 2, 3]).erase r) rest) :=
  simulateTrial_luce_process (Agent.mk (fun _q _r => 1) 1 0) [9, 1, 2, 3] 2
    [1/2, 1/4] (fun r _hr => by norm_num) (by decide) (by decide) (by decide)

/-- C9: `Agent.simulate` is free of side effects: in this pure embedding it
only constructs a new Observations, the docket's trial data is carried over
unchanged into the result, and two simulations of the same docket — by any
two agents with any group ids and any random streams — see identical trial
data (`stimulus_set`, `n_select`). -/
theorem agent_simulate_pure (a b : Agent) (d : Docket)
    (us vs : List (List ℚ)) :
    (Agent.simulate a d us).stimulus_set = d.stimulus_set
    ∧ (Agent.simulate a d us).n_select = d.n_select
    ∧ (Agent.simulate a d us).stimulus_set
        = (Agent.simulate b d vs).stimulus_set
    ∧ (Agent.simulate a d us).n_select = (Agent.simulate b d vs).n_select :=
  ⟨rfl, rfl, rfl, rfl⟩

/-! #### Fit-controller lemmas -/

theorem validPairs_length : ∀ (recs : List RestartRecord) (i : Nat),
    (validPairs i recs).length = recs.countP RestartRecord.isValid := by
  intro recs
  induction recs with
  | nil => intro i; simp [validPairs]
  | cons rec recs ih =>
    intro i
    simp only [validPairs, List.countP_cons]
    by_cases h : rec.isValid
    · simp [h, ih]
    · simp [h, ih]

theorem validPairs_mem (d : RestartRecord) : ∀ (recs : List RestartRecord)
    (i : Nat) (q : Nat × ℚ), q ∈ validPairs i recs →
    i ≤ q.1 ∧ (recs.getD (q.1 - i) d).isValid = true
      ∧ q.2 = (recs.getD (q.1 - i) d).final := by
  intro recs
  induction recs with
  | nil => intro i q hq; simp [validPairs] at hq
  | cons rec recs ih =>
    intro i q hq
    have tailcase : q ∈ validPairs (i + 1) recs →
        i ≤ q.1 ∧ ((rec :: recs).getD (q.1 - i) d).isValid = true
          ∧ q.2 = ((rec :: recs).getD (q.1 - i) d).final := by
      intro hq2
      obtain ⟨h1, h2, h3⟩ := ih (i + 1) q hq2
      have hsplit : q.1 - i = (q.1 - (i + 1)) + 1 := by omega
      rw [hsplit, List.getD_cons_succ]
      exact ⟨by omega, h2, h3⟩
    simp only [validPairs] at hq
    by_cases h : rec.isValid
    · rw [if_pos h] at hq
      rcases List.mem_cons.mp hq with rfl | hq2
      · simpa using h
      · exact tailcase hq2
    · rw [if_neg h] at hq
      exact tailcase hq

theorem foldl_betterOf_mem : ∀ (ps : List (Nat × ℚ)) (b : Nat × ℚ),
    ps.foldl betterOf b = b ∨ ps.foldl betterOf b ∈ ps := by
  intro ps
  induction ps with
  | nil => intro b; left; rfl
  | cons q ps ih =>
    intro b
    rw [List.foldl_cons]
    rcases ih (betterOf b q) with h | h
    · rw [h]
      unfold betterOf
      split
      · right; exact List.mem_cons_self q ps
      · left; rfl
    · right; exact List.mem_cons_of_mem q h

theorem foldl_betterOf_le : ∀ (ps : List (Nat × ℚ)) (b : Nat × ℚ),
    (ps.foldl betterOf b).2 ≤ b.2 ∧ ∀ q ∈ ps, (ps.foldl betterOf b).2 ≤ q.2 := by
  intro ps
  induction ps with
  | nil => intro b; exact ⟨le_refl _, by simp⟩
  | cons q ps ih =>
    intro b
    rw [List.foldl_cons]
    obtain ⟨h1, h2⟩ := ih (betterOf b q)
    have hb : (betterOf b q).2 ≤ b.2 ∧ (betterOf b q).2 ≤ q.2 := by
      unfold betterOf
      split
      · exact ⟨le_of_lt (by assumption), le_refl _⟩
      · exact ⟨le_refl _, le_of_not_lt (by assumption)⟩
    refine ⟨le_trans h1 hb.1, ?_⟩
    intro x hx
    rcases List.mem_cons.mp hx with rfl | hx2
    · exact le_trans h1 hb.2
    · exact h2 x hx2

theorem pickBest_spec (l : List (Nat × ℚ)) (p : Nat × ℚ)
    (h : pickBest l = some p) : p ∈ l ∧ ∀ q ∈ l, p.2 ≤ q.2 := by
  cases l with
  | nil => simp [pickBest] at h
  | cons a as =>
    simp only [pickBest, Option.some.injEq] at h
    obtain ⟨h1, h2⟩ := foldl_betterOf_le as a
    constructor
    · rcases foldl_betterOf_mem as a with hm | hm
      · rw [← h, hm]; exact List.mem_cons_self a as
      · rw [← h]; exact List.mem_cons_of_mem a hm
    · intro q hq
      rcases List.mem_cons.mp hq with rfl | hq2
      · rw [← h]; exact h1
      · rw [← h]; exact h2 q hq2

/-- C2: restart failure handling by the Fit Controller: every requested
restart is recorded (a failing restart never aborts its siblings); the
reported `n_valid_restart` counts exactly the restarts whose every epoch
produced a finite loss; every valid pair used for selection comes from a
valid restart's final monitored value; the best restart, when any, is a valid
restart minimizing the monitored value; the mean statistic aggregates the
valid subset only; and on the spec's example — 5 restarts of which 2 are
forced non-finite — `n_valid_restart = 3`. -/
theorem fit_controller_failure_handling (trajectories : List (List (Option ℚ))) :
    (fitController trajectories).records.length = trajectories.length
    ∧ (fitController trajectories).n_valid_restart
        = trajectories.countP
            (fun t => ! t.isEmpty && t.all (fun l => l.isSome))
    ∧ (∀ q ∈ validPairs 0 (fitController trajectories).records,
        ((fitController trajectories).records.getD q.1
            (RestartRecord.mk [])).isValid = true
        ∧ q.2 = ((fitController trajectories).records.getD q.1
            (RestartRecord.mk [])).final)
    ∧ (∀ p, (fitController trajectories).best = some p →
        p ∈ validPairs 0 (fitController trajectories).records
        ∧ ∀ q ∈ validPairs 0 (fitController trajectories).records, p.2 ≤ q.2)
    ∧ (fitController trajectories).mean_loss
        = ((validPairs 0 (fitController trajectories).records).map Prod.snd).sum
          / (fitController trajectories).n_valid_restart
    ∧ (fitController
        [[some 3, some 2], [some 1, none], [some 5], [], [some 4, some 6]]
        ).n_valid_restart = 3 := by
  refine ⟨?_, ?_, ?_, ?_, rfl, ?_⟩
  · exact List.length_map trajectories RestartRecord.mk
  · show (validPairs 0 (trajectories.map RestartRecord.mk)).length = _
    rw [validPairs_length, List.countP_map]
    rfl
  · intro q hq
    obtain ⟨_, h2, h3⟩ :=
      validPairs_mem (RestartRecord.mk []) (fitController trajectories).records
        0 q hq
    rw [Nat.sub_zero] at h2 h3
    exact ⟨h2, h3⟩
  · intro p hp
    exact pickBest_spec _ p hp
  · rfl

/-- C2 witness: a concrete run with one valid restart; the best selection and
the valid-pair characterization are obtained by applying the theorem. -/
theorem fit_controller_failure_handling_witness :
    (((fitController [[some 1, none], [some 7], []]).records.getD 1
        (RestartRecord.mk [])).isValid = true
      ∧ (7 : ℚ) = ((fitController [[some 1, none], [some 7], []]).records.getD 1
        (RestartRecord.mk [])).final)
    ∧ ((1, (7 : ℚ)) ∈ validPairs 0 (fitController [[some 1, none], [some 7], []]).records
      ∧ ∀ q ∈ validPairs 0 (fitController [[some 1, none], [some 7], []]).records,
          (7 : ℚ) ≤ q.2) :=
  ⟨(fit_controller_failure_handling [[some 1, none], [some 7], []]).2.2.1
      (1, (7 : ℚ)) (List.mem_singleton.mpr rfl),
   (fit_controller_failure_handling [[some 1, none], [some 7], []]).2.2.2.1
      (1, (7 : ℚ)) rfl⟩

/-! #### Early-stopping lemmas -/

theorem drop_eq_cons_getD {α : Type} (d : α) : ∀ (l : List α) (n : Nat)
    (h : α) (t : List α),
    l.drop n = h :: t → l.getD n d = h ∧ l.drop (n + 1) = t := by
  intro l
  induction l with
  | nil => intro n h t hd; simp at hd
  | cons a as ih =>
    intro n h t hd
    cases n with
    | zero =>
      rw [List.drop_zero] at hd
      injection hd with h1 h2
      subst h1
      subst h2
      exact ⟨rfl, by simp⟩
    | succ m =>
      rw [List.drop_succ_cons] at hd
      obtain ⟨h1, h2⟩ := ih m h t hd
      refine ⟨by rw [List.getD_cons_succ]; exact h1, ?_⟩
      rw [List.drop_succ_cons]
      exact h2

theorem lt_length_of_drop_cons {α : Type} {l : List α} {n : Nat} {h : α}
    {t : List α} (hd : l.drop n = h :: t) : n < l.length := by
  by_contra hc
  rw [List.drop_eq_nil_of_le (le_of_not_lt hc)] at hd
  exact List.noConfusion hd

theorem esLoop_spec {α W : Type} [LinearOrder α] (dflt : α × W) (patience : Nat)
    (hpat : 0 < patience) (hist : List (α × W)) :
    ∀ (rest : List (α × W)) (epoch bestE : Nat) (bestV : α) (bestW : W)
      (wait : Nat),
    rest = hist.drop epoch →
    bestE < epoch →
    hist.getD bestE dflt = (bestV, bestW) →
    (∀ e < epoch, bestV ≤ (hist.getD e dflt).1) →
    wait + 1 = epoch - bestE →
    wait + 1 ≤ patience →
    (esLoop patience rest epoch bestE bestV bestW wait).triggered = true →
    (esLoop patience rest epoch bestE bestV bestW wait).n_epoch < hist.length
    ∧ (hist.getD (esLoop patience rest epoch bestE bestV bestW wait).n_epoch
        dflt).2 = (esLoop patience rest epoch bestE bestV bestW wait).weights
    ∧ (∀ e < (esLoop patience rest epoch bestE bestV bestW wait).epochs_run,
        (hist.getD (esLoop patience rest epoch bestE bestV bestW wait).n_epoch
          dflt).1 ≤ (hist.getD e dflt).1)
    ∧ (esLoop patience rest epoch bestE bestV bestW wait).epochs_run
        = (esLoop patience rest epoch bestE bestV bestW wait).n_epoch
          + patience + 1
    ∧ (esLoop patience rest epoch bestE bestV bestW wait).epochs_run
        ≤ hist.length := by
  intro rest
  induction rest with
  | nil =>
    intro epoch bestE bestV bestW wait _ _ _ _ _ _ htrig
    simp [esLoop] at htrig
  | cons hw rest ih =>
    intro epoch bestE bestV bestW wait hrest hbe hbest hmin hwait hwle htrig
    obtain ⟨v, w⟩ := hw
    have hdrop := drop_eq_cons_getD dflt hist epoch (v, w) rest hrest.symm
    have hlt : epoch < hist.length := lt_length_of_drop_cons hrest.symm
    by_cases himp : v < bestV
    · simp only [esLoop, if_pos himp] at htrig ⊢
      refine ih (epoch + 1) epoch v w 0 hdrop.2.symm (by omega) hdrop.1 ?_
        (by omega) (by omega) htrig
      intro e he
      rcases Nat.lt_succ_iff_lt_or_eq.mp he with h | rfl
      · exact le_trans (le_of_lt himp) (hmin e h)
      · rw [hdrop.1]
    · by_cases hstop : patience ≤ wait + 1
      · simp only [esLoop, if_neg himp, if_pos hstop] at htrig ⊢
        have hveq : patience = wait + 1 := le_antisymm hstop hwle
        refine ⟨by omega, by rw [hbest], ?_, by omega, by omega⟩
        intro e he
        rw [hbest]
        rcases Nat.lt_succ_iff_lt_or_eq.mp he with h | rfl
        · exact hmin e h
        · rw [hdrop.1]
          exact le_of_not_lt himp
      · simp only [esLoop, if_neg himp, if_neg hstop] at htrig ⊢
        refine ih (epoch + 1) bestE bestV bestW (wait + 1) hdrop.2.symm
          (by omega) hbest ?_ (by omega) (by omega) htrig
        intro e he
        rcases Nat.lt_succ_iff_lt_or_eq.mp he with h | rfl
        · exact hmin e h
        · rw [hdrop.1]
          exact le_of_not_lt himp

/-- C5: when early stopping triggers during a restart, the returned weights
are those of the epoch with the best (lowest) monitored validation value
among all epochs run, the restart record's `n_epoch` is that best epoch — in
particular strictly before, and distinct from, the epoch at which training
terminated — and training ran exactly `patience` epochs past the best one. -/
theorem early_stopping_restores_best {α W : Type} [LinearOrder α]
    (dflt : α × W) (patience : Nat) (hist : List (α × W)) (r : ESResult W)
    (hpat : 0 < patience) (hrun : runES patience hist = some r)
    (htrig : r.triggered = true) :
    r.n_epoch < hist.length
    ∧ (hist.getD r.n_epoch dflt).2 = r.weights
    ∧ (∀ e < r.epochs_run, (hist.getD r.n_epoch dflt).1 ≤ (hist.getD e dflt).1)
    ∧ r.epochs_run = r.n_epoch + patience + 1
    ∧ r.epochs_run ≤ hist.length
    ∧ r.n_epoch ≠ r.epochs_run - 1 := by
  cases hist with
  | nil => simp [runES] at hrun
  | cons hw rest =>
    obtain ⟨v, w⟩ := hw
    simp only [runES, Option.some.injEq] at hrun
    subst hrun
    have hspec := esLoop_spec dflt patience hpat ((v, w) :: rest) rest 1 0 v w 0
      (by simp) (by omega) rfl ?_ (by omega) (by omega) htrig
    · obtain ⟨h1, h2, h3, h4, h5⟩ := hspec
      exact ⟨h1, h2, h3, h4, h5, by omega⟩
    · intro e he
      have he0 : e = 0 := by omega
      subst he0
      exact le_refl _

/-- C5 witness: patience 2 on the monitored trajectory
`[3, 1, 5, 4, 9]` (weights `10..14`): early stopping triggers after epoch 3,
rolls back to epoch 1's weights (`11`), and records `n_epoch = 1`, not the
termination epoch `3`. -/
theorem early_stopping_restores_best_witness :
    (ESResult.mk 1 11 4 true).n_epoch
        < ([(3, 10), (1, 11), (5, 12), (4, 13), (9, 14)] : List (Nat × Nat)).length
    ∧ (([(3, 10), (1, 11), (5, 12), (4, 13), (9, 14)] : List (Nat × Nat)).getD
        (ESResult.mk 1 11 4 true).n_epoch (0, 0)).2
        = (ESResult.mk (W := Nat) 1 11 4 true).weights
    ∧ (∀ e < (ESResult.mk (W := Nat) 1 11 4 true).epochs_run,
        (([(3, 10), (1, 11), (5, 12), (4, 13), (9, 14)] : List (Nat × Nat)).getD
          (ESResult.mk 1 11 4 true).n_epoch (0, 0)).1
          ≤ (([(3, 10), (1, 11), (5, 12), (4, 13), (9, 14)] : List (Nat × Nat)).getD
              e (0, 0)).1)
    ∧ (ESResult.mk (W := Nat) 1 11 4 true).epochs_run
        = (ESResult.mk (W := Nat) 1 11 4 true).n_epoch + 2 + 1
    ∧ (ESResult.mk (W := Nat) 1 11 4 true).epochs_run
        ≤ ([(3, 10), (1, 11), (5, 12), (4, 13), (9, 14)] : List (Nat × Nat)).length
    ∧ (ESResult.mk (W := Nat) 1 11 4 true).n_epoch
        ≠ (ESResult.mk (W := Nat) 1 11 4 true).epochs_run - 1 :=
  early_stopping_restores_best (0, 0) 2
    [(3, 10), (1, 11), (5, 12), (4, 13), (9, 14)] (ESResult.mk 1 11 4 true)
    (by decide) (by rfl) (by rfl)

end Psiz
